import Mathlib

/-!
Verification of the lockfile dependency-diff tool (`src/main.rs`, `src/sources.rs`).

The development shallowly embeds the program's data model and logic:

* `Dep` mirrors `struct Dep { name, version, source }` (`main.rs` lines 61-66).
  `Version` models the semantic-version triple `major.minor.patch`; none of the
  verified inputs carries pre-release or build metadata, so the order on
  `Version` is the lexicographic order on the numeric triple, exactly as semver
  orders such versions.  `source` is modelled as an opaque comparable string
  (`Option SourceId` in the code, with `None < Some` as in Rust's derived
  `Ord`), so the derived lexicographic `Ord` on `Dep` becomes the lexicographic
  order on `(name, version, source)` built below.
* `find_vers_diff` mirrors `fn find_vers_diff` (`main.rs` lines 272-295); the
  `BTreeSet` collection of a `Vec` is modelled by `depSort`, the sorted
  deduplicated list of the vector's elements, which is exactly the sequence a
  `BTreeSet` built from the vector iterates.
* `mergeOps` mirrors the `merge_join_by` pipeline in `main` (lines 358-366)
  over `BTreeMap<Name, Vec<Dep>>`, modelled as a name-sorted association list.
* `packages_from_list` mirrors `packages_from_str` (lines 94-108) after the
  external lockfile parser: it receives the parsed package records, sorts them
  (`sort_unstable`) and groups them into the map via `entry().or_default().push()`.
* `Op.render` mirrors `impl Display for Op` (lines 251-261).
* `print_metadata` / `print_changelog` / `runOps` mirror the enrichment and
  report loop (lines 149-248 and 376-383).  Package resolution is an external
  collaborator (cargo); it is modelled as an oracle `Dep → Except String (Option Pkg)`
  matching how `Resolver::pkg` is consumed: a hard error propagates via `?`,
  while an unresolvable record yields `none` and the `if let Some(..)` match
  skips the enrichment.
* `get_changelog` mirrors lines 120-130 over an abstract filesystem read
  result, and `changelog_diff` mirrors lines 132-139 over the external
  `difference` crate's line diff, modelled by a longest-common-subsequence
  line matching (the added lines are the new-side lines left unmatched).
-/

/-- Semantic version, modelled as the numeric `major.minor.patch` triple. -/
structure Version where
  major : Nat
  minor : Nat
  patch : Nat
deriving DecidableEq, Repr

/-- Semver order on pre-release-free versions: lexicographic on the triple. -/
def Version.key (v : Version) : Lex (Nat × Lex (Nat × Nat)) :=
  toLex (v.major, toLex (v.minor, v.patch))

theorem version_key_injective : Function.Injective Version.key := by
  intro a b h
  cases a; cases b
  simp only [Version.key, toLex_inj, Prod.mk.injEq] at h
  simp [h.1, h.2.1, h.2.2]

instance : LinearOrder Version := LinearOrder.lift' Version.key version_key_injective

/-- One `[[package]]` record: `struct Dep` of `main.rs`. -/
structure Dep where
  name : String
  version : Version
  source : Option String
deriving DecidableEq, Repr

/-- Rust's `Option` order: `None` below every `Some`, `Some`s by content. -/
def srcKey : Option String → WithBot String
  | none => ⊥
  | some s => (s : WithBot String)

theorem srcKey_injective : Function.Injective srcKey := by
  intro a b h
  cases a <;> cases b <;> simp_all [srcKey]

/-- The derived `Ord` on `Dep`: lexicographic on `(name, version, source)`. -/
def Dep.key (d : Dep) : Lex (String × Lex (Version × WithBot String)) :=
  toLex (d.name, toLex (d.version, srcKey d.source))

theorem dep_key_injective : Function.Injective Dep.key := by
  intro a b h
  cases a; cases b
  simp only [Dep.key, toLex_inj, Prod.mk.injEq] at h
  obtain ⟨h1, h2, h3⟩ := h
  simp [h1, h2, srcKey_injective h3]

instance : LinearOrder Dep := LinearOrder.lift' Dep.key dep_key_injective

/-- Executable strict comparison on strings (byte order of the code points),
agreeing with the `String` order used by the lockfile's `Name` keys. -/
def strLtb (a b : String) : Bool := decide (a.data < b.data)

theorem strLtb_iff {a b : String} : strLtb a b = true ↔ a < b := by
  simp [strLtb, String.lt_iff_toList_lt, String.toList]

/-- Executable strict comparison realising the `Dep` linear order. -/
def Dep.ltb (a b : Dep) : Bool :=
  strLtb a.name b.name ||
    (a.name == b.name &&
      (decide (a.version.major < b.version.major) ||
        (a.version.major == b.version.major &&
          (decide (a.version.minor < b.version.minor) ||
            (a.version.minor == b.version.minor &&
              (decide (a.version.patch < b.version.patch) ||
                (a.version.patch == b.version.patch &&
                  (match a.source, b.source with
                   | none, some _ => true
                   | some s, some t => strLtb s t
                   | _, _ => false))))))))

theorem version_lt_iff {a b : Version} :
    a < b ↔ a.major < b.major ∨ (a.major = b.major ∧
      (a.minor < b.minor ∨ (a.minor = b.minor ∧ a.patch < b.patch))) := by
  show Version.key a < Version.key b ↔ _
  simp [Version.key, Prod.Lex.lt_iff]

theorem srcKey_lt_iff {a b : Option String} :
    srcKey a < srcKey b ↔
      (∃ t, a = none ∧ b = some t) ∨ (∃ s t, a = some s ∧ b = some t ∧ s < t) := by
  cases a <;> cases b <;> simp [srcKey]

theorem dep_lt_iff {a b : Dep} :
    a < b ↔ a.name < b.name ∨ (a.name = b.name ∧
      (a.version < b.version ∨ (a.version = b.version ∧ srcKey a.source < srcKey b.source))) := by
  show Dep.key a < Dep.key b ↔ _
  simp [Dep.key, Prod.Lex.lt_iff]

theorem Dep.ltb_iff {a b : Dep} : Dep.ltb a b = true ↔ a < b := by
  rw [dep_lt_iff, version_lt_iff, srcKey_lt_iff]
  cases a with
  | mk an av as =>
    cases b with
    | mk bn bv bs =>
      cases av; cases bv
      simp only [Dep.ltb, Bool.or_eq_true, Bool.and_eq_true, beq_iff_eq,
        decide_eq_true_eq, strLtb_iff]
      cases as <;> cases bs <;> simp [strLtb_iff] <;> tauto

/-- Non-strict executable comparison on `Dep` (totality companion of `ltb`). -/
def Dep.leb (a b : Dep) : Bool := ! Dep.ltb b a

theorem Dep.leb_iff {a b : Dep} : Dep.leb a b = true ↔ a ≤ b := by
  rw [Dep.leb, Bool.not_eq_true', ← Bool.not_eq_true, Dep.ltb_iff, not_lt]

/-- The sorting relation that `sortDeps` uses, phrased executably. -/
def Dep.lePr (a b : Dep) : Prop := Dep.leb a b = true

instance : DecidableRel Dep.lePr := fun a b => inferInstanceAs (Decidable (Dep.leb a b = true))

instance : IsTotal Dep Dep.lePr :=
  ⟨fun a b => by simpa [Dep.lePr, Dep.leb_iff] using le_total a b⟩

instance : IsTrans Dep Dep.lePr :=
  ⟨fun a b c hab hbc => by
    simp only [Dep.lePr, Dep.leb_iff] at *
    exact le_trans hab hbc⟩

/-- `lockfile.packages.sort_unstable()` (`main.rs` line 96): sort the parsed
records by the derived order. -/
def sortDeps (l : List Dep) : List Dep := l.insertionSort Dep.lePr

/-- The ordered iteration of `BTreeSet<Dep>` collected from a vector
(`main.rs` lines 273-274): the vector's elements, sorted, without duplicates. -/
def depSort (l : List Dep) : List Dep := (sortDeps l).dedup

/-- One reported change: `enum Op` of `main.rs`. -/
inductive Op where
  | Add : Dep → Op
  | Remove : Dep → Op
  | Update : Dep → Dep → Op
deriving DecidableEq, Repr

/-- `fn find_vers_diff` (`main.rs` lines 272-295): per-name reconciliation.
Both vectors are collected into `BTreeSet`s, the intersection is removed from
both sides, the remainders are re-read in sorted order, the first
`min`-many elements of each are paired into `Update`s, and the suffixes
become `Remove`s / `Add`s, emitted as removed, then updates, then added. -/
def find_vers_diff (old new : List Dep) : List Op :=
  let oldS := depSort old
  let newS := depSort new
  let unchanged := oldS.filter (fun d => decide (d ∈ newS))
  let oldR := oldS.filter (fun d => decide (d ∉ unchanged))
  let newR := newS.filter (fun d => decide (d ∉ unchanged))
  let common := min oldR.length newR.length
  let removed := oldR.drop common
  let added := newR.drop common
  (removed.map Op.Remove ++
    ((oldR.take common).zip (newR.take common)).map (fun p => Op.Update p.1 p.2)) ++
    added.map Op.Add

/-- The snapshot: `type Deps = BTreeMap<Name, Vec<Dep>>`, modelled as an
association list iterated in ascending key order. -/
abbrev Deps := List (String × List Dep)

/-- `fn wrap_op` (`main.rs` lines 263-265). -/
def wrap_op (op : Dep → Op) (desp : List Dep) : List Op := desp.map op

/-- Fuelled worker for the `merge_join_by` pipeline of `main` (lines 358-366).
`merge_join_by` compares the heads' keys: a smaller left key yields
`EitherOrBoth::Left` (the whole removed group), a smaller right key yields
`Right` (the added group), equal keys yield `Both` (per-name reconciliation).
Each step consumes at least one element, so fuel `|old| + |new|` is exact;
the fuel only makes the recursion structural. -/
def mergeOpsF : Nat → List (String × List Dep) → List (String × List Dep) → List Op
  | 0, _, _ => []
  | _ + 1, [], [] => []
  | f + 1, [], n :: ns => wrap_op Op.Add n.2 ++ mergeOpsF f [] ns
  | f + 1, o :: os, [] => wrap_op Op.Remove o.2 ++ mergeOpsF f os []
  | f + 1, o :: os, n :: ns =>
    if strLtb o.1 n.1 then wrap_op Op.Remove o.2 ++ mergeOpsF f os (n :: ns)
    else if strLtb n.1 o.1 then wrap_op Op.Add n.2 ++ mergeOpsF f (o :: os) ns
    else find_vers_diff o.2 n.2 ++ mergeOpsF f os ns

/-- The operation sequence `main` collects (`main.rs` lines 358-366). -/
def mergeOps (old new : Deps) : List Op :=
  mergeOpsF (old.length + new.length) old new

/-- `BTreeMap::entry(name).or_default().push(dep)` over a sorted association
list: insert a fresh singleton group at the key's position, or push the record
onto the end of the existing group. -/
def insertGroup : List (String × List Dep) → Dep → List (String × List Dep)
  | [], d => [(d.name, [d])]
  | (k, g) :: rest, d =>
    if strLtb d.name k then (d.name, [d]) :: (k, g) :: rest
    else if strLtb k d.name then (k, g) :: insertGroup rest d
    else (k, g ++ [d]) :: rest

/-- `fn packages_from_str` (`main.rs` lines 94-108) after the external
lockfile parser has produced the record list: `sort_unstable`, then group by
name into the `BTreeMap`. -/
def packages_from_list (pkgs : List Dep) : Deps :=
  (sortDeps pkgs).foldl insertGroup []

/-- `x.y.z` rendering of a version, as semver displays plain versions. -/
def Version.render (v : Version) : String :=
  toString v.major ++ "." ++ toString v.minor ++ "." ++ toString v.patch

/-- `impl Display for Op` (`main.rs` lines 251-261). -/
def Op.render : Op → String
  | .Add dep => "+++ " ++ dep.name ++ " " ++ dep.version.render
  | .Remove dep => "--- " ++ dep.name ++ " " ++ dep.version.render
  | .Update o n => "    " ++ o.name ++ " " ++ o.version.render ++ " -> " ++ n.version.render

/-- The name a reported operation is about. -/
def Op.opName : Op → String
  | .Add d => d.name
  | .Remove d => d.name
  | .Update o _ => o.name

/-- Every record a reported operation mentions. -/
def Op.recordsOf : Op → List Dep
  | .Add d => [d]
  | .Remove d => [d]
  | .Update o n => [o, n]

/-- The record removed by the operation, when it is a `Remove`. -/
def Op.removeRec : Op → Option Dep
  | .Remove d => some d
  | _ => none

/-- The record added by the operation, when it is an `Add`. -/
def Op.addRec : Op → Option Dep
  | .Add d => some d
  | _ => none

/-- The record charged to the old snapshot: a `Remove`'s record or an
`Update`'s old side. -/
def Op.oldSideRec : Op → Option Dep
  | .Remove d => some d
  | .Update o _ => some o
  | _ => none

/-- The record charged to the new snapshot: an `Add`'s record or an
`Update`'s new side. -/
def Op.newSideRec : Op → Option Dep
  | .Add d => some d
  | .Update _ n => some n
  | _ => none

/-- Whether the operation is an `Update`. -/
def Op.isUpdate : Op → Bool
  | .Update _ _ => true
  | _ => false

theorem sortDeps_perm (l : List Dep) : (sortDeps l).Perm l := List.perm_insertionSort Dep.lePr l

theorem sortDeps_sorted (l : List Dep) : (sortDeps l).Sorted (· ≤ ·) :=
  (List.sorted_insertionSort Dep.lePr l).imp (fun h => Dep.leb_iff.mp h)

theorem depSort_nodup (l : List Dep) : (depSort l).Nodup := List.nodup_dedup _

theorem depSort_sorted (l : List Dep) : (depSort l).Sorted (· ≤ ·) :=
  List.Pairwise.sublist (List.dedup_sublist _) (sortDeps_sorted l)

theorem sorted_lt_of_le_nodup {l : List Dep} (hs : l.Sorted (· ≤ ·)) (hn : l.Nodup) :
    l.Sorted (· < ·) :=
  (hs.and hn).imp (fun h => lt_of_le_of_ne h.1 h.2)

theorem depSort_sorted_lt (l : List Dep) : (depSort l).Sorted (· < ·) :=
  sorted_lt_of_le_nodup (depSort_sorted l) (depSort_nodup l)

theorem mem_depSort {d : Dep} {l : List Dep} : d ∈ depSort l ↔ d ∈ l := by
  rw [depSort, List.mem_dedup, (sortDeps_perm l).mem_iff]

theorem depSort_perm_of_nodup {l : List Dep} (h : l.Nodup) : (depSort l).Perm l := by
  rw [depSort, List.Nodup.dedup (((sortDeps_perm l).nodup_iff).mpr h)]
  exact sortDeps_perm l

theorem find_vers_diff_self (l : List Dep) : find_vers_diff l l = [] := by
  have h1 : (depSort l).filter (fun d => decide (d ∈ depSort l)) = depSort l :=
    List.filter_eq_self.mpr (fun a ha => by simpa using ha)
  have h2 : (depSort l).filter (fun d => decide (d ∉ depSort l)) = [] :=
    List.filter_eq_nil_iff.mpr (fun a ha => by simpa using ha)
  simp only [find_vers_diff, h1, h2]
  simp

theorem mergeOpsF_self (f : Nat) (d : List (String × List Dep)) : mergeOpsF f d d = [] := by
  induction d generalizing f with
  | nil => cases f <;> rfl
  | cons p rest ih =>
    cases f with
    | zero => rfl
    | succ f =>
      have hlt : strLtb p.1 p.1 = false := by
        rw [← Bool.not_eq_true, strLtb_iff]
        exact lt_irrefl _
      simp [mergeOpsF, hlt, find_vers_diff_self, ih]

/-- Concrete record of the name `A` used by the reconciliation example. -/
def depA (ma mi : Nat) : Dep := ⟨"A", ⟨ma, mi, 0⟩, none⟩

/-- The old-side remainder: the records of `old` absent from `new`, in the
sorted set order left after the intersection pass of `find_vers_diff`. -/
def oldRem (old new : List Dep) : List Dep :=
  (depSort old).filter (fun d => decide (d ∉ new))

/-- The new-side remainder, symmetrically. -/
def newRem (old new : List Dep) : List Dep :=
  (depSort new).filter (fun d => decide (d ∉ old))

/-- The number of positional `Update` pairs emitted for one name. -/
def kmin (old new : List Dep) : Nat :=
  min (oldRem old new).length (newRem old new).length

theorem find_vers_diff_eq (old new : List Dep) :
    find_vers_diff old new =
      (((oldRem old new).drop (kmin old new)).map Op.Remove ++
        (((oldRem old new).take (kmin old new)).zip ((newRem old new).take (kmin old new))).map
          (fun p => Op.Update p.1 p.2)) ++
        ((newRem old new).drop (kmin old new)).map Op.Add := by
  have hold :
      (depSort old).filter
          (fun d => decide (d ∉ (depSort old).filter (fun d => decide (d ∈ depSort new))))
        = (depSort old).filter (fun d => decide (d ∉ new)) := by
    apply List.filter_congr
    intro a ha
    have ha' : a ∈ old := mem_depSort.mp ha
    simp only [decide_eq_decide, List.mem_filter, decide_eq_true_eq, mem_depSort]
    simp [ha']
  have hnew :
      (depSort new).filter
          (fun d => decide (d ∉ (depSort old).filter (fun d => decide (d ∈ depSort new))))
        = (depSort new).filter (fun d => decide (d ∉ old)) := by
    apply List.filter_congr
    intro a ha
    have ha' : a ∈ new := mem_depSort.mp ha
    simp only [decide_eq_decide, List.mem_filter, decide_eq_true_eq, mem_depSort]
    simp [ha']
  simp only [find_vers_diff, hold, hnew, oldRem, newRem, kmin]

/-- C1: per-name reconciliation first drops the records common to both sides,
then pairs the sorted remainders positionally into `Update`s, turning the
leftover old suffix into `Remove`s and the leftover new suffix into `Add`s,
emitted as removed-leftovers, then updates, then added-leftovers; on old side
`{A@1.0, A@1.1}` against new side `{A@1.1, A@2.0}` the output is exactly
`Update(A@1.0, A@2.0)`. -/
theorem find_vers_diff_reconciliation :
    (∀ old new : List Dep,
      find_vers_diff old new =
        (let oldR := (depSort old).filter (fun d => decide (d ∉ new))
         let newR := (depSort new).filter (fun d => decide (d ∉ old))
         let k := min oldR.length newR.length
         ((oldR.drop k).map Op.Remove ++
           ((oldR.take k).zip (newR.take k)).map (fun p => Op.Update p.1 p.2)) ++
           (newR.drop k).map Op.Add)) ∧
    find_vers_diff [depA 1 0, depA 1 1] [depA 1 1, depA 2 0] =
      [Op.Update (depA 1 0) (depA 2 0)] := by
  constructor
  · intro old new
    simpa only [oldRem, newRem, kmin] using find_vers_diff_eq old new
  · rfl

/-- C5: diffing two equal snapshots produces the empty operation sequence. -/
theorem diff_self_empty (d : Deps) : mergeOps d d = [] := mergeOpsF_self _ d

theorem oldRem_nodup (old new : List Dep) : (oldRem old new).Nodup :=
  (depSort_nodup old).filter _

theorem newRem_nodup (old new : List Dep) : (newRem old new).Nodup :=
  (depSort_nodup new).filter _

theorem oldRem_disjoint {old new : List Dep} {d : Dep}
    (h : d ∈ oldRem old new) : d ∉ newRem old new := by
  intro hmem
  rw [oldRem, List.mem_filter] at h
  rw [newRem, List.mem_filter] at hmem
  exact (by simpa using h.2 : d ∉ new) (mem_depSort.mp hmem.1)

theorem filterMap_oldSide_removes (l : List Dep) :
    (l.map Op.Remove).filterMap Op.oldSideRec = l := by
  induction l with
  | nil => rfl
  | cons x t ih => simp [Op.oldSideRec, ih]

theorem filterMap_oldSide_adds (l : List Dep) :
    (l.map Op.Add).filterMap Op.oldSideRec = [] := by
  induction l with
  | nil => rfl
  | cons x t ih => simp [Op.oldSideRec, ih]

theorem filterMap_oldSide_updates (l : List (Dep × Dep)) :
    (l.map (fun p => Op.Update p.1 p.2)).filterMap Op.oldSideRec = l.map Prod.fst := by
  induction l with
  | nil => rfl
  | cons x t ih => simp [Op.oldSideRec, ih]

theorem filterMap_newSide_removes (l : List Dep) :
    (l.map Op.Remove).filterMap Op.newSideRec = [] := by
  induction l with
  | nil => rfl
  | cons x t ih => simp [Op.newSideRec, ih]

theorem filterMap_newSide_adds (l : List Dep) :
    (l.map Op.Add).filterMap Op.newSideRec = l := by
  induction l with
  | nil => rfl
  | cons x t ih => simp [Op.newSideRec, ih]

theorem filterMap_newSide_updates (l : List (Dep × Dep)) :
    (l.map (fun p => Op.Update p.1 p.2)).filterMap Op.newSideRec = l.map Prod.snd := by
  induction l with
  | nil => rfl
  | cons x t ih => simp [Op.newSideRec, ih]

theorem flatMap_records_removes (l : List Dep) :
    (l.map Op.Remove).flatMap Op.recordsOf = l := by
  induction l with
  | nil => rfl
  | cons x t ih => simp [Op.recordsOf, ih]

theorem flatMap_records_adds (l : List Dep) :
    (l.map Op.Add).flatMap Op.recordsOf = l := by
  induction l with
  | nil => rfl
  | cons x t ih => simp [Op.recordsOf, ih]

theorem flatMap_records_updates (l : List (Dep × Dep)) :
    (l.map (fun p => Op.Update p.1 p.2)).flatMap Op.recordsOf =
      l.flatMap (fun p => [p.1, p.2]) := by
  induction l with
  | nil => rfl
  | cons x t ih => simp [Op.recordsOf, ih]

theorem mem_zipFlat {a b : List Dep} {d : Dep}
    (h : d ∈ (a.zip b).flatMap (fun p => [p.1, p.2])) : d ∈ a ∨ d ∈ b := by
  rcases List.mem_flatMap.mp h with ⟨p, hp, hd⟩
  rcases List.of_mem_zip hp with ⟨h1, h2⟩
  rcases List.mem_cons.mp hd with h | h
  · exact Or.inl (h ▸ h1)
  · simp only [List.mem_singleton] at h
    exact Or.inr (h ▸ h2)

theorem nodup_zipFlat : ∀ {a b : List Dep}, a.Nodup → b.Nodup → (∀ x ∈ a, x ∉ b) →
    ((a.zip b).flatMap (fun p => [p.1, p.2])).Nodup := by
  intro a
  induction a with
  | nil => intro b _ _ _; simp
  | cons x xs ih =>
    intro b ha hb hd
    cases b with
    | nil => simp
    | cons y ys =>
      rw [List.zip_cons_cons, List.flatMap_cons]
      have hxy : x ≠ y := fun h => hd x (List.mem_cons_self _ _) (h ▸ List.mem_cons_self _ _)
      have hxr : x ∉ (xs.zip ys).flatMap (fun p => [p.1, p.2]) := by
        intro hmem
        rcases mem_zipFlat hmem with h | h
        · exact (List.nodup_cons.mp ha).1 h
        · exact hd x (List.mem_cons_self _ _) (List.mem_cons_of_mem _ h)
      have hyr : y ∉ (xs.zip ys).flatMap (fun p => [p.1, p.2]) := by
        intro hmem
        rcases mem_zipFlat hmem with h | h
        · exact hd y (List.mem_cons_of_mem _ h) (List.mem_cons_self _ _)
        · exact (List.nodup_cons.mp hb).1 h
      have hrest : ((xs.zip ys).flatMap (fun p => [p.1, p.2])).Nodup :=
        ih (List.nodup_cons.mp ha).2 (List.nodup_cons.mp hb).2
          (fun z hz hz' => hd z (List.mem_cons_of_mem _ hz) (List.mem_cons_of_mem _ hz'))
      simp only [List.cons_append, List.nil_append, List.nodup_cons, List.mem_cons]
      exact ⟨fun h => h.elim hxy hxr, hyr, hrest⟩

/-- C3: for a name present in both snapshots the records of the `Remove`
operations together with the old sides of the `Update`s are, as a multiset,
the old record list minus the unchanged records; symmetrically for `Add`
plus the new sides of `Update`s; and no record appears in more than one
emitted operation. -/
theorem diff_record_conservation (old new : List Dep)
    (ho : old.Nodup) (hn : new.Nodup) :
    ((find_vers_diff old new).filterMap Op.oldSideRec).Perm
        (old.filter (fun d => decide (d ∉ new))) ∧
    ((find_vers_diff old new).filterMap Op.newSideRec).Perm
        (new.filter (fun d => decide (d ∉ old))) ∧
    ((find_vers_diff old new).flatMap Op.recordsOf).Nodup := by
  have hk1 : kmin old new ≤ (oldRem old new).length := min_le_left _ _
  have hk2 : kmin old new ≤ (newRem old new).length := min_le_right _ _
  have hlen1 : ((oldRem old new).take (kmin old new)).length = kmin old new := by
    simpa using Nat.min_eq_left hk1
  have hlen2 : ((newRem old new).take (kmin old new)).length = kmin old new := by
    simpa using Nat.min_eq_left hk2
  refine ⟨?_, ?_, ?_⟩
  · rw [find_vers_diff_eq, List.filterMap_append, List.filterMap_append,
      filterMap_oldSide_removes, filterMap_oldSide_updates, filterMap_oldSide_adds,
      List.map_fst_zip _ _ (by rw [hlen1, hlen2]), List.append_nil]
    have hperm : ((oldRem old new).drop (kmin old new) ++
        (oldRem old new).take (kmin old new)).Perm (oldRem old new) := by
      have h := @List.perm_append_comm _ ((oldRem old new).drop (kmin old new))
        ((oldRem old new).take (kmin old new))
      rwa [List.take_append_drop] at h
    refine hperm.trans ?_
    simpa only [oldRem] using (depSort_perm_of_nodup ho).filter
      (fun d => decide (d ∉ new))
  · rw [find_vers_diff_eq, List.filterMap_append, List.filterMap_append,
      filterMap_newSide_removes, filterMap_newSide_updates, filterMap_newSide_adds,
      List.map_snd_zip _ _ (by rw [hlen1, hlen2]), List.nil_append]
    rw [List.take_append_drop]
    simpa only [newRem] using (depSort_perm_of_nodup hn).filter
      (fun d => decide (d ∉ old))
  · rw [find_vers_diff_eq, List.flatMap_append, List.flatMap_append,
      flatMap_records_removes, flatMap_records_updates, flatMap_records_adds]
    have hOdis : ∀ x ∈ oldRem old new, x ∉ newRem old new := fun x hx => oldRem_disjoint hx
    have hmid : (((oldRem old new).take (kmin old new)).zip
        ((newRem old new).take (kmin old new))).flatMap (fun p => [p.1, p.2]) |>.Nodup :=
      nodup_zipFlat ((oldRem_nodup old new).sublist (List.take_sublist _ _))
        ((newRem_nodup old new).sublist (List.take_sublist _ _))
        (fun x hx hx' =>
          hOdis x (List.take_subset _ _ hx) (List.take_subset _ _ hx'))
    rw [List.nodup_append, List.nodup_append]
    refine ⟨⟨(oldRem_nodup old new).sublist (List.drop_sublist _ _), hmid, ?_⟩,
      (newRem_nodup old new).sublist (List.drop_sublist _ _), ?_⟩
    · intro a ha hb
      rcases mem_zipFlat hb with h | h
      · exact List.disjoint_take_drop (oldRem_nodup old new) (le_refl _) h ha
      · exact hOdis a (List.drop_subset _ _ ha) (List.take_subset _ _ h)
    · intro a ha hb
      rcases List.mem_append.mp ha with h | h
      · exact hOdis a (List.drop_subset _ _ h) (List.drop_subset _ _ hb)
      · rcases mem_zipFlat h with h' | h'
        · exact hOdis a (List.take_subset _ _ h') (List.drop_subset _ _ hb)
        · exact List.disjoint_take_drop (newRem_nodup old new) (le_refl _) h' hb

theorem diff_record_conservation_witness :
    ([depA 1 0, depA 1 1].Nodup ∧ [depA 1 1, depA 2 0].Nodup) ∧
    (((find_vers_diff [depA 1 0, depA 1 1] [depA 1 1, depA 2 0]).filterMap Op.oldSideRec).Perm
        ([depA 1 0, depA 1 1].filter (fun d => decide (d ∉ [depA 1 1, depA 2 0]))) ∧
      ((find_vers_diff [depA 1 0, depA 1 1] [depA 1 1, depA 2 0]).filterMap Op.newSideRec).Perm
        ([depA 1 1, depA 2 0].filter (fun d => decide (d ∉ [depA 1 0, depA 1 1]))) ∧
      ((find_vers_diff [depA 1 0, depA 1 1] [depA 1 1, depA 2 0]).flatMap Op.recordsOf).Nodup) :=
  ⟨⟨by decide, by decide⟩,
    diff_record_conservation [depA 1 0, depA 1 1] [depA 1 1, depA 2 0] (by decide) (by decide)⟩

/-- The names of a snapshot, in iteration order. -/
def keys (m : Deps) : List String := m.map Prod.fst

/-- Every record stored under a name actually bears that name (the grouping
invariant `packages_from_str` establishes). -/
def coherent (m : Deps) : Prop := ∀ p ∈ m, ∀ d ∈ p.2, d.name = p.1

theorem filterMap_removeRec_removes (l : List Dep) :
    (l.map Op.Remove).filterMap Op.removeRec = l := by
  induction l with
  | nil => rfl
  | cons x t ih => simp [Op.removeRec, ih]

theorem filterMap_removeRec_adds (l : List Dep) :
    (l.map Op.Add).filterMap Op.removeRec = [] := by
  induction l with
  | nil => rfl
  | cons x t ih => simp [Op.removeRec, ih]

theorem filterMap_addRec_adds (l : List Dep) :
    (l.map Op.Add).filterMap Op.addRec = l := by
  induction l with
  | nil => rfl
  | cons x t ih => simp [Op.addRec, ih]

theorem filterMap_addRec_removes (l : List Dep) :
    (l.map Op.Remove).filterMap Op.addRec = [] := by
  induction l with
  | nil => rfl
  | cons x t ih => simp [Op.addRec, ih]

theorem strLtb_eq_of_not {a b : String} (h1 : strLtb a b = false) (h2 : strLtb b a = false) :
    a = b := by
  have n1 : ¬ a < b := fun h => by simp [strLtb_iff.mpr h] at h1
  have n2 : ¬ b < a := fun h => by simp [strLtb_iff.mpr h] at h2
  exact le_antisymm (not_lt.mp n2) (not_lt.mp n1)

theorem mergeOpsF_disjoint (f : Nat) :
    ∀ (old new : List (String × List Dep)),
      old.length + new.length ≤ f →
      List.Disjoint (old.map Prod.fst) (new.map Prod.fst) →
      (mergeOpsF f old new).filterMap Op.removeRec = old.flatMap Prod.snd ∧
      (mergeOpsF f old new).filterMap Op.addRec = new.flatMap Prod.snd ∧
      ∀ op ∈ mergeOpsF f old new, op.isUpdate = false := by
  induction f with
  | zero =>
    intro old new hf _
    have h1 : old = [] := List.length_eq_zero.mp (by omega)
    have h2 : new = [] := List.length_eq_zero.mp (by omega)
    subst h1; subst h2
    exact ⟨rfl, rfl, by simp [mergeOpsF]⟩
  | succ f ih =>
    intro old new hf hd
    match old, new with
    | [], [] => exact ⟨rfl, rfl, by simp [mergeOpsF]⟩
    | [], n :: ns =>
      have hrec := ih [] ns (by simp at hf ⊢; omega) (by simp)
      simp only [mergeOpsF, wrap_op, List.filterMap_append]
      refine ⟨?_, ?_, ?_⟩
      · rw [filterMap_removeRec_adds, hrec.1]; rfl
      · rw [filterMap_addRec_adds, hrec.2.1]; rfl
      · intro op hop
        rcases List.mem_append.mp hop with h | h
        · rcases List.mem_map.mp h with ⟨d, _, rfl⟩; rfl
        · exact hrec.2.2 op h
    | o :: os, [] =>
      have hrec := ih os [] (by simp at hf ⊢; omega) (by simp)
      simp only [mergeOpsF, wrap_op, List.filterMap_append]
      refine ⟨?_, ?_, ?_⟩
      · rw [filterMap_removeRec_removes, hrec.1]; rfl
      · rw [filterMap_addRec_removes, hrec.2.1]; rfl
      · intro op hop
        rcases List.mem_append.mp hop with h | h
        · rcases List.mem_map.mp h with ⟨d, _, rfl⟩; rfl
        · exact hrec.2.2 op h
    | o :: os, n :: ns =>
      have hne : strLtb o.1 n.1 = true ∨ strLtb n.1 o.1 = true := by
        cases ho : strLtb o.1 n.1 with
        | true => exact Or.inl rfl
        | false =>
          cases hn : strLtb n.1 o.1 with
          | true => exact Or.inr rfl
          | false =>
            exact absurd (strLtb_eq_of_not ho hn)
              (fun h => hd (List.mem_map_of_mem Prod.fst (List.mem_cons_self _ _))
                (by rw [h]; exact List.mem_map_of_mem Prod.fst (List.mem_cons_self _ _)))
      rcases hne with hlt | hgt
      · have hrec := ih os (n :: ns) (by simp at hf ⊢; omega)
          (fun a ha => hd (List.mem_cons_of_mem _ ha))
        simp only [mergeOpsF, wrap_op]
        rw [if_pos hlt]
        simp only [List.filterMap_append]
        refine ⟨?_, ?_, ?_⟩
        · rw [filterMap_removeRec_removes, hrec.1]; rfl
        · rw [filterMap_addRec_removes, hrec.2.1]; rfl
        · intro op hop
          rcases List.mem_append.mp hop with h | h
          · rcases List.mem_map.mp h with ⟨d, _, rfl⟩; rfl
          · exact hrec.2.2 op h
      · have hltf : strLtb o.1 n.1 = false := by
          cases hcontr : strLtb o.1 n.1 with
          | false => rfl
          | true => exact absurd (strLtb_iff.mp hgt) (lt_asymm (strLtb_iff.mp hcontr))
        have hrec := ih (o :: os) ns (by simp at hf ⊢; omega)
          (fun a ha hb => hd ha (List.mem_cons_of_mem _ hb))
        simp only [mergeOpsF, wrap_op]
        rw [if_neg (by intro h; rw [h] at hltf; exact Bool.noConfusion hltf), if_pos hgt]
        simp only [List.filterMap_append]
        refine ⟨?_, ?_, ?_⟩
        · rw [filterMap_removeRec_adds, hrec.1]; rfl
        · rw [filterMap_addRec_adds, hrec.2.1]; rfl
        · intro op hop
          rcases List.mem_append.mp hop with h | h
          · rcases List.mem_map.mp h with ⟨d, _, rfl⟩; rfl
          · exact hrec.2.2 op h

theorem sorted_le_of_all_eq : ∀ {l : List String} {k : String},
    (∀ x ∈ l, x = k) → l.Sorted (· ≤ ·) := by
  intro l
  induction l with
  | nil => intro k _; simp
  | cons a t ih =>
    intro k h
    rw [List.sorted_cons]
    refine ⟨fun b hb => ?_, ih (fun x hx => h x (List.mem_cons_of_mem _ hx))⟩
    rw [h a (List.mem_cons_self _ _), h b (List.mem_cons_of_mem _ hb)]

theorem sorted_batch_append {batch rest : List String} {k : String}
    (hb : ∀ x ∈ batch, x = k) (hr : rest.Sorted (· ≤ ·))
    (hbound : ∀ y ∈ rest, k ≤ y) :
    (batch ++ rest).Sorted (· ≤ ·) := by
  rw [List.Sorted, List.pairwise_append]
  exact ⟨sorted_le_of_all_eq hb, hr,
    fun a ha b hb' => le_trans (le_of_eq (hb a ha)) (hbound b hb')⟩

theorem wrap_remove_opName {g : List Dep} {k : String} (hc : ∀ d ∈ g, d.name = k) :
    ∀ op ∈ wrap_op Op.Remove g, op.opName = k := by
  intro op hop
  rcases List.mem_map.mp hop with ⟨d, hd, rfl⟩
  exact hc d hd

theorem wrap_add_opName {g : List Dep} {k : String} (hc : ∀ d ∈ g, d.name = k) :
    ∀ op ∈ wrap_op Op.Add g, op.opName = k := by
  intro op hop
  rcases List.mem_map.mp hop with ⟨d, hd, rfl⟩
  exact hc d hd

theorem mem_oldRem {old new : List Dep} {d : Dep} (h : d ∈ oldRem old new) : d ∈ old := by
  rw [oldRem, List.mem_filter] at h
  exact mem_depSort.mp h.1

theorem mem_newRem {old new : List Dep} {d : Dep} (h : d ∈ newRem old new) : d ∈ new := by
  rw [newRem, List.mem_filter] at h
  exact mem_depSort.mp h.1

theorem find_vers_diff_opName {a b : List Dep} {k : String}
    (hca : ∀ d ∈ a, d.name = k) (hcb : ∀ d ∈ b, d.name = k) :
    ∀ op ∈ find_vers_diff a b, op.opName = k := by
  intro op hop
  rw [find_vers_diff_eq] at hop
  rcases List.mem_append.mp hop with h | h
  · rcases List.mem_append.mp h with h | h
    · rcases List.mem_map.mp h with ⟨d, hd, rfl⟩
      exact hca d (mem_oldRem (List.drop_subset _ _ hd))
    · rcases List.mem_map.mp h with ⟨p, hp, rfl⟩
      exact hca p.1 (mem_oldRem (List.take_subset _ _ (List.of_mem_zip hp).1))
  · rcases List.mem_map.mp h with ⟨d, hd, rfl⟩
    exact hcb d (mem_newRem (List.drop_subset _ _ hd))

theorem mergeOpsF_names (f : Nat) :
    ∀ (old new : List (String × List Dep)),
      old.length + new.length ≤ f →
      (old.map Prod.fst).Sorted (· < ·) → (new.map Prod.fst).Sorted (· < ·) →
      (∀ p ∈ old, ∀ d ∈ p.2, d.name = p.1) → (∀ p ∈ new, ∀ d ∈ p.2, d.name = p.1) →
      ((mergeOpsF f old new).map Op.opName).Sorted (· ≤ ·) ∧
      (∀ op ∈ mergeOpsF f old new,
        op.opName ∈ old.map Prod.fst ∨ op.opName ∈ new.map Prod.fst) := by
  induction f with
  | zero =>
    intro old new _ _ _ _ _
    exact ⟨by simp [mergeOpsF], by simp [mergeOpsF]⟩
  | succ f ih =>
    intro old new hf hso hsn hco hcn
    match old, new with
    | [], [] => exact ⟨by simp [mergeOpsF], by simp [mergeOpsF]⟩
    | [], n :: ns =>
      have hsn' := List.sorted_cons.mp (show (n.1 :: ns.map Prod.fst).Sorted (· < ·) from hsn)
      have hrec := ih [] ns (by simp at hf ⊢; omega) (by simp) hsn'.2
        (by simp) (fun p hp => hcn p (List.mem_cons_of_mem _ hp))
      have hbatch : ∀ x ∈ (wrap_op Op.Add n.2).map Op.opName, x = n.1 := by
        intro x hx
        rcases List.mem_map.mp hx with ⟨op, hop, rfl⟩
        exact wrap_add_opName (hcn n (List.mem_cons_self _ _)) op hop
      constructor
      · rw [show mergeOpsF (f + 1) [] (n :: ns) = wrap_op Op.Add n.2 ++ mergeOpsF f [] ns
          from rfl, List.map_append]
        refine sorted_batch_append hbatch hrec.1 ?_
        intro y hy
        rcases List.mem_map.mp hy with ⟨op, hop, rfl⟩
        rcases hrec.2 op hop with h | h
        · simp at h
        · exact le_of_lt (hsn'.1 _ h)
      · intro op hop
        rcases List.mem_append.mp hop with h | h
        · right
          rw [List.map_cons, wrap_add_opName (hcn n (List.mem_cons_self _ _)) op h]
          exact List.mem_cons_self _ _
        · rcases hrec.2 op h with h' | h'
          · simp at h'
          · exact Or.inr (List.mem_cons_of_mem _ h')
    | o :: os, [] =>
      have hso' := List.sorted_cons.mp (show (o.1 :: os.map Prod.fst).Sorted (· < ·) from hso)
      have hrec := ih os [] (by simp at hf ⊢; omega) hso'.2 (by simp)
        (fun p hp => hco p (List.mem_cons_of_mem _ hp)) (by simp)
      have hbatch : ∀ x ∈ (wrap_op Op.Remove o.2).map Op.opName, x = o.1 := by
        intro x hx
        rcases List.mem_map.mp hx with ⟨op, hop, rfl⟩
        exact wrap_remove_opName (hco o (List.mem_cons_self _ _)) op hop
      constructor
      · rw [show mergeOpsF (f + 1) (o :: os) [] = wrap_op Op.Remove o.2 ++ mergeOpsF f os []
          from rfl, List.map_append]
        refine sorted_batch_append hbatch hrec.1 ?_
        intro y hy
        rcases List.mem_map.mp hy with ⟨op, hop, rfl⟩
        rcases hrec.2 op hop with h | h
        · exact le_of_lt (hso'.1 _ h)
        · simp at h
      · intro op hop
        rcases List.mem_append.mp hop with h | h
        · left
          rw [List.map_cons, wrap_remove_opName (hco o (List.mem_cons_self _ _)) op h]
          exact List.mem_cons_self _ _
        · rcases hrec.2 op h with h' | h'
          · exact Or.inl (List.mem_cons_of_mem _ h')
          · simp at h'
    | o :: os, n :: ns =>
      have hso' := List.sorted_cons.mp (show (o.1 :: os.map Prod.fst).Sorted (· < ·) from hso)
      have hsn' := List.sorted_cons.mp (show (n.1 :: ns.map Prod.fst).Sorted (· < ·) from hsn)
      cases hlt : strLtb o.1 n.1 with
      | true =>
        have hrec := ih os (n :: ns) (by simp at hf ⊢; omega) hso'.2 hsn
          (fun p hp => hco p (List.mem_cons_of_mem _ hp)) hcn
        have hbatch : ∀ x ∈ (wrap_op Op.Remove o.2).map Op.opName, x = o.1 := by
          intro x hx
          rcases List.mem_map.mp hx with ⟨op, hop, rfl⟩
          exact wrap_remove_opName (hco o (List.mem_cons_self _ _)) op hop
        have heq : mergeOpsF (f + 1) (o :: os) (n :: ns) =
            wrap_op Op.Remove o.2 ++ mergeOpsF f os (n :: ns) := by
          simp only [mergeOpsF]
          rw [if_pos hlt]
        constructor
        · rw [heq, List.map_append]
          refine sorted_batch_append hbatch hrec.1 ?_
          intro y hy
          rcases List.mem_map.mp hy with ⟨op, hop, rfl⟩
          rcases hrec.2 op hop with h | h
          · exact le_of_lt (hso'.1 _ h)
          · rcases List.mem_cons.mp h with h' | h'
            · exact le_of_lt (h' ▸ strLtb_iff.mp hlt)
            · exact le_of_lt (lt_trans (strLtb_iff.mp hlt) (hsn'.1 _ h'))
        · rw [heq]
          intro op hop
          rcases List.mem_append.mp hop with h | h
          · left
            rw [List.map_cons, wrap_remove_opName (hco o (List.mem_cons_self _ _)) op h]
            exact List.mem_cons_self _ _
          · rcases hrec.2 op h with h' | h'
            · exact Or.inl (List.mem_cons_of_mem _ h')
            · exact Or.inr h'
      | false =>
        cases hgt : strLtb n.1 o.1 with
        | true =>
          have hrec := ih (o :: os) ns (by simp at hf ⊢; omega) hso hsn'.2 hco
            (fun p hp => hcn p (List.mem_cons_of_mem _ hp))
          have hbatch : ∀ x ∈ (wrap_op Op.Add n.2).map Op.opName, x = n.1 := by
            intro x hx
            rcases List.mem_map.mp hx with ⟨op, hop, rfl⟩
            exact wrap_add_opName (hcn n (List.mem_cons_self _ _)) op hop
          have heq : mergeOpsF (f + 1) (o :: os) (n :: ns) =
              wrap_op Op.Add n.2 ++ mergeOpsF f (o :: os) ns := by
            simp only [mergeOpsF]
            rw [if_neg (by intro h; rw [h] at hlt; exact Bool.noConfusion hlt), if_pos hgt]
          constructor
          · rw [heq, List.map_append]
            refine sorted_batch_append hbatch hrec.1 ?_
            intro y hy
            rcases List.mem_map.mp hy with ⟨op, hop, rfl⟩
            rcases hrec.2 op hop with h | h
            · rcases List.mem_cons.mp h with h' | h'
              · exact le_of_lt (h' ▸ strLtb_iff.mp hgt)
              · exact le_of_lt (lt_trans (strLtb_iff.mp hgt) (hso'.1 _ h'))
            · exact le_of_lt (hsn'.1 _ h)
          · rw [heq]
            intro op hop
            rcases List.mem_append.mp hop with h | h
            · right
              rw [List.map_cons, wrap_add_opName (hcn n (List.mem_cons_self _ _)) op h]
              exact List.mem_cons_self _ _
            · rcases hrec.2 op h with h' | h'
              · exact Or.inl h'
              · exact Or.inr (List.mem_cons_of_mem _ h')
        | false =>
          have hkey : o.1 = n.1 := strLtb_eq_of_not hlt hgt
          have hrec := ih os ns (by simp at hf ⊢; omega) hso'.2 hsn'.2
            (fun p hp => hco p (List.mem_cons_of_mem _ hp))
            (fun p hp => hcn p (List.mem_cons_of_mem _ hp))
          have hbatch : ∀ x ∈ (find_vers_diff o.2 n.2).map Op.opName, x = o.1 := by
            intro x hx
            rcases List.mem_map.mp hx with ⟨op, hop, rfl⟩
            exact find_vers_diff_opName (hco o (List.mem_cons_self _ _))
              (fun d hd => (hcn n (List.mem_cons_self _ _) d hd).trans hkey.symm) op hop
          have heq : mergeOpsF (f + 1) (o :: os) (n :: ns) =
              find_vers_diff o.2 n.2 ++ mergeOpsF f os ns := by
            simp only [mergeOpsF]
            rw [if_neg (by intro h; rw [h] at hlt; exact Bool.noConfusion hlt),
              if_neg (by intro h; rw [h] at hgt; exact Bool.noConfusion hgt)]
          constructor
          · rw [heq, List.map_append]
            refine sorted_batch_append hbatch hrec.1 ?_
            intro y hy
            rcases List.mem_map.mp hy with ⟨op, hop, rfl⟩
            rcases hrec.2 op hop with h | h
            · exact le_of_lt (hso'.1 _ h)
            · exact le_of_lt (hkey ▸ hsn'.1 _ h)
          · rw [heq]
            intro op hop
            rcases List.mem_append.mp hop with h | h
            · left
              rw [List.map_cons,
                find_vers_diff_opName (hco o (List.mem_cons_self _ _))
                  (fun d hd => (hcn n (List.mem_cons_self _ _) d hd).trans hkey.symm) op h]
              exact List.mem_cons_self _ _
            · rcases hrec.2 op h with h' | h'
              · exact Or.inl (List.mem_cons_of_mem _ h')
              · exact Or.inr (List.mem_cons_of_mem _ h')

/-- Concrete single-record snapshots used as witnesses. -/
def depB : Dep := ⟨"b", ⟨1, 0, 0⟩, none⟩

/-- Concrete single-record snapshot record under name `c`. -/
def depC : Dep := ⟨"c", ⟨2, 0, 0⟩, none⟩

/-- C4: when the two snapshots' name sets are disjoint the diff is exactly one
`Remove` per old record and one `Add` per new record, with no `Update`; and in
general the emitted operations visit names in ascending order, each name's
batch contiguous (the sequence of operation names is sorted). -/
theorem diff_disjoint_and_name_order (old new : Deps) :
    (List.Disjoint (keys old) (keys new) →
      (mergeOps old new).filterMap Op.removeRec = old.flatMap Prod.snd ∧
      (mergeOps old new).filterMap Op.addRec = new.flatMap Prod.snd ∧
      ∀ op ∈ mergeOps old new, op.isUpdate = false) ∧
    ((keys old).Sorted (· < ·) → (keys new).Sorted (· < ·) →
      coherent old → coherent new →
      ((mergeOps old new).map Op.opName).Sorted (· ≤ ·)) := by
  constructor
  · intro hd
    exact mergeOpsF_disjoint _ old new (le_refl _) hd
  · intro hso hsn hco hcn
    exact (mergeOpsF_names _ old new (le_refl _) hso hsn hco hcn).1

theorem diff_disjoint_and_name_order_witness :
    (List.Disjoint (keys [("b", [depB])]) (keys [("c", [depC])]) ∧
      ((mergeOps [("b", [depB])] [("c", [depC])]).filterMap Op.removeRec = [depB] ∧
        (mergeOps [("b", [depB])] [("c", [depC])]).filterMap Op.addRec = [depC] ∧
        ∀ op ∈ mergeOps [("b", [depB])] [("c", [depC])], op.isUpdate = false)) ∧
    ((keys [("b", [depB])]).Sorted (· < ·) ∧ (keys [("c", [depC])]).Sorted (· < ·) ∧
      coherent [("b", [depB])] ∧ coherent [("c", [depC])] ∧
      ((mergeOps [("b", [depB])] [("c", [depC])]).map Op.opName).Sorted (· ≤ ·)) := by
  have hdis : List.Disjoint (keys [("b", [depB])]) (keys [("c", [depC])]) := by
    intro a ha hb
    simp [keys] at ha hb
    subst ha
    exact (by decide : ("b" : String) ≠ "c") hb
  have hco : coherent [("b", [depB])] := by
    intro p hp d hd
    rcases List.mem_singleton.mp hp with rfl
    rcases List.mem_singleton.mp hd with rfl
    rfl
  have hcn : coherent [("c", [depC])] := by
    intro p hp d hd
    rcases List.mem_singleton.mp hp with rfl
    rcases List.mem_singleton.mp hd with rfl
    rfl
  refine ⟨⟨hdis, ?_⟩, by simp [keys], by simp [keys], hco, hcn,
    (diff_disjoint_and_name_order [("b", [depB])] [("c", [depC])]).2
      (by simp [keys]) (by simp [keys]) hco hcn⟩
  have h := (diff_disjoint_and_name_order [("b", [depB])] [("c", [depC])]).1 hdis
  simpa using h

/-- The records stored under name `n` in the grouped map (the map's lookup,
phrased over the association list; under the sorted-unique-keys invariant at
most one entry matches). -/
def gsel : List (String × List Dep) → String → List Dep
  | [], _ => []
  | q :: rest, n => (if q.1 == n then q.2 else []) ++ gsel rest n

theorem gsel_eq_nil {m : List (String × List Dep)} {n : String}
    (h : ∀ k ∈ m.map Prod.fst, n ≠ k) : gsel m n = [] := by
  induction m with
  | nil => rfl
  | cons q rest ih =>
    rw [gsel, if_neg (by simpa using (h q.1 (List.mem_map_of_mem _ (List.mem_cons_self _ _))).symm),
      List.nil_append]
    exact ih (fun k hk => h k (by rw [List.map_cons]; exact List.mem_cons_of_mem _ hk))

theorem mem_keys_insertGroup {m : List (String × List Dep)} {d : Dep} {n : String} :
    n ∈ (insertGroup m d).map Prod.fst ↔ n = d.name ∨ n ∈ m.map Prod.fst := by
  induction m with
  | nil => simp [insertGroup]
  | cons q rest ih =>
    by_cases h1 : strLtb d.name q.1 = true
    · simp [insertGroup, h1]
    · by_cases h2 : strLtb q.1 d.name = true
      · rw [insertGroup]
        rw [if_neg (by simp [h1]), if_pos h2]
        simp only [List.map_cons, List.mem_cons, ih]
        tauto
      · have hk : q.1 = d.name :=
          strLtb_eq_of_not (Bool.not_eq_true _ ▸ h2) (Bool.not_eq_true _ ▸ h1)
        rw [insertGroup]
        rw [if_neg (by simp [h1]), if_neg (by simp [h2])]
        simp only [List.map_cons, List.mem_cons, hk]
        tauto

theorem keys_sorted_insertGroup {m : List (String × List Dep)} {d : Dep}
    (h : (m.map Prod.fst).Sorted (· < ·)) :
    ((insertGroup m d).map Prod.fst).Sorted (· < ·) := by
  induction m with
  | nil => simp [insertGroup]
  | cons q rest ih =>
    have h' := List.sorted_cons.mp (show (q.1 :: rest.map Prod.fst).Sorted (· < ·) from h)
    by_cases h1 : strLtb d.name q.1 = true
    · rw [insertGroup, if_pos h1]
      simp only [List.map_cons, List.sorted_cons, List.mem_cons]
      refine ⟨fun b hb => ?_, h'.1, h'.2⟩
      rcases hb with rfl | hb
      · exact strLtb_iff.mp h1
      · exact lt_trans (strLtb_iff.mp h1) (h'.1 b hb)
    · by_cases h2 : strLtb q.1 d.name = true
      · rw [insertGroup]
        rw [if_neg (by simp [h1]), if_pos h2]
        simp only [List.map_cons, List.sorted_cons]
        refine ⟨fun b hb => ?_, ih h'.2⟩
        rcases mem_keys_insertGroup.mp hb with rfl | hb
        · exact strLtb_iff.mp h2
        · exact h'.1 b hb
      · have hk : q.1 = d.name :=
          strLtb_eq_of_not (Bool.not_eq_true _ ▸ h2) (Bool.not_eq_true _ ▸ h1)
        rw [insertGroup]
        rw [if_neg (by simp [h1]), if_neg (by simp [h2])]
        simpa using h


theorem gsel_insertGroup {m : List (String × List Dep)} {d : Dep} {n : String}
    (h : (m.map Prod.fst).Sorted (· < ·)) :
    gsel (insertGroup m d) n =
      if d.name = n then gsel m n ++ [d] else gsel m n := by
  induction m with
  | nil =>
    by_cases hn : d.name = n
    · simp [insertGroup, gsel, hn]
    · simp [insertGroup, gsel, hn, (by simpa using hn : ¬ (d.name == n) = true)]
  | cons q rest ih =>
    have h' := List.sorted_cons.mp (show (q.1 :: rest.map Prod.fst).Sorted (· < ·) from h)
    by_cases h1 : strLtb d.name q.1 = true
    · rw [insertGroup, if_pos h1]
      by_cases hn : d.name = n
      · have hnil : gsel (q :: rest) n = [] := by
          apply gsel_eq_nil
          intro k hk hek
          rcases List.mem_cons.mp hk with heq | hk'
          · exact absurd (strLtb_iff.mp h1) (by rw [hn, hek, heq]; exact lt_irrefl _)
          · exact absurd (lt_trans (strLtb_iff.mp h1) (h'.1 k hk'))
              (by rw [hn, hek]; exact lt_irrefl _)
        rw [if_pos hn, hnil, gsel, if_pos (by simpa using hn), hnil]
        rfl
      · rw [if_neg hn, gsel, if_neg (by simpa using hn), List.nil_append]
    · by_cases h2 : strLtb q.1 d.name = true
      · rw [insertGroup]
        rw [if_neg (by simp [h1]), if_pos h2]
        rw [gsel, gsel, ih h'.2]
        by_cases hn : d.name = n
        · rw [if_pos hn, if_pos hn, List.append_assoc]
        · rw [if_neg hn, if_neg hn]
      · have hk : q.1 = d.name :=
          strLtb_eq_of_not (Bool.not_eq_true _ ▸ h2) (Bool.not_eq_true _ ▸ h1)
        rw [insertGroup]
        rw [if_neg (by simp [h1]), if_neg (by simp [h2])]
        by_cases hn : d.name = n
        · have hnil : gsel rest n = [] := by
            apply gsel_eq_nil
            intro k hkk hek
            exact absurd (h'.1 k hkk) (by rw [hk, hn, hek]; exact lt_irrefl _)
          rw [if_pos hn, gsel, gsel, if_pos (by simpa using hk.trans hn),
            if_pos (by simpa using hk.trans hn), hnil]
          simp
        · rw [if_neg hn, gsel, gsel, if_neg (by simpa using fun he => hn (hk ▸ he)),
            if_neg (by simpa using fun he => hn (hk ▸ he))]

theorem keys_sorted_foldl (l : List Dep) :
    ∀ m, (m.map Prod.fst).Sorted (· < ·) →
      ((l.foldl insertGroup m).map Prod.fst).Sorted (· < ·) := by
  induction l with
  | nil => intro m hm; exact hm
  | cons d t ih => intro m hm; exact ih _ (keys_sorted_insertGroup hm)

theorem gsel_foldl (l : List Dep) (n : String) :
    ∀ m, (m.map Prod.fst).Sorted (· < ·) →
      gsel (l.foldl insertGroup m) n = gsel m n ++ l.filter (fun d => d.name == n) := by
  induction l with
  | nil => intro m _; simp
  | cons d t ih =>
    intro m hm
    rw [List.foldl_cons, ih _ (keys_sorted_insertGroup hm), gsel_insertGroup hm,
      List.filter_cons]
    by_cases hn : d.name = n
    · rw [if_pos hn, if_pos (by simpa using hn), List.append_assoc]
      rfl
    · rw [if_neg hn, if_neg (by simpa using hn)]

theorem coherent_insertGroup {m : List (String × List Dep)} {d : Dep}
    (h : coherent m) : coherent (insertGroup m d) := by
  induction m with
  | nil =>
    intro p hp d' hd'
    rcases List.mem_singleton.mp hp with rfl
    rcases List.mem_singleton.mp hd' with rfl
    rfl
  | cons q rest ih =>
    have hq := h q (List.mem_cons_self _ _)
    have hrest : coherent rest := fun p hp => h p (List.mem_cons_of_mem _ hp)
    by_cases h1 : strLtb d.name q.1 = true
    · rw [insertGroup, if_pos h1]
      intro p hp d' hd'
      rcases List.mem_cons.mp hp with rfl | hp'
      · rcases List.mem_singleton.mp hd' with rfl
        rfl
      · exact h p hp' d' hd'
    · by_cases h2 : strLtb q.1 d.name = true
      · rw [insertGroup]
        rw [if_neg (by simp [h1]), if_pos h2]
        intro p hp d' hd'
        rcases List.mem_cons.mp hp with rfl | hp'
        · exact hq d' hd'
        · exact ih hrest p hp' d' hd'
      · have hk : q.1 = d.name :=
          strLtb_eq_of_not (Bool.not_eq_true _ ▸ h2) (Bool.not_eq_true _ ▸ h1)
        rw [insertGroup]
        rw [if_neg (by simp [h1]), if_neg (by simp [h2])]
        intro p hp d' hd'
        rcases List.mem_cons.mp hp with rfl | hp'
        · rcases List.mem_append.mp hd' with hd'' | hd''
          · exact hq d' hd''
          · rcases List.mem_singleton.mp hd'' with rfl
            exact hk.symm
        · exact h p (List.mem_cons_of_mem _ hp') d' hd'

theorem coherent_foldl (l : List Dep) :
    ∀ m, coherent m → coherent (l.foldl insertGroup m) := by
  induction l with
  | nil => intro m hm; exact hm
  | cons d t ih => intro m hm; exact ih _ (coherent_insertGroup hm)

theorem gsel_of_mem : ∀ {m : List (String × List Dep)},
    (m.map Prod.fst).Sorted (· < ·) → ∀ {p}, p ∈ m → gsel m p.1 = p.2 := by
  intro m
  induction m with
  | nil => intro _ p hp; exact absurd hp (List.not_mem_nil _)
  | cons q rest ih =>
    intro hs p hp
    have h' := List.sorted_cons.mp (show (q.1 :: rest.map Prod.fst).Sorted (· < ·) from hs)
    rcases List.mem_cons.mp hp with rfl | hp'
    · rw [gsel, if_pos (by simp), gsel_eq_nil (fun k hk he => ne_of_lt (h'.1 k hk) he),
        List.append_nil]
    · have hne : (q.1 == p.1) = false := by
        simpa using ne_of_lt (h'.1 p.1 (List.mem_map_of_mem _ hp'))
      rw [gsel, hne]
      simpa using ih h'.2 hp'

theorem mem_keys_of_gsel_ne_nil : ∀ {m : List (String × List Dep)} {n : String},
    gsel m n ≠ [] → n ∈ m.map Prod.fst := by
  intro m
  induction m with
  | nil => intro n h; exact absurd rfl h
  | cons q rest ih =>
    intro n h
    by_cases hq : (q.1 == n) = true
    · have hqe : q.1 = n := by simpa using hq
      rw [List.map_cons, hqe]
      exact List.mem_cons_self _ _
    · rw [gsel, if_neg hq, List.nil_append] at h
      exact List.mem_cons_of_mem _ (ih h)

/-- C7: snapshot building maps each dependency name to the ordered,
duplicate-free list of the records bearing that name (sorted by the record
order), with names iterated in ascending order, and is deterministic. -/
theorem packages_from_list_spec (pkgs : List Dep) (h : pkgs.Nodup) :
    (keys (packages_from_list pkgs)).Sorted (· < ·) ∧
    coherent (packages_from_list pkgs) ∧
    (∀ p ∈ packages_from_list pkgs,
      p.2.Sorted (· < ·) ∧ p.2.Perm (pkgs.filter (fun d => d.name == p.1))) ∧
    (∀ d ∈ pkgs, d.name ∈ keys (packages_from_list pkgs)) ∧
    packages_from_list pkgs = packages_from_list pkgs := by
  have hks : ((packages_from_list pkgs).map Prod.fst).Sorted (· < ·) :=
    keys_sorted_foldl _ [] (by simp)
  have hgsel : ∀ n, gsel (packages_from_list pkgs) n =
      (sortDeps pkgs).filter (fun d => d.name == n) := by
    intro n
    rw [packages_from_list, gsel_foldl _ _ [] (by simp)]
    rfl
  refine ⟨hks, coherent_foldl _ [] (fun p hp => absurd hp (List.not_mem_nil _)), ?_, ?_, rfl⟩
  · intro p hp
    have hval : p.2 = (sortDeps pkgs).filter (fun d => d.name == p.1) := by
      rw [← hgsel p.1, gsel_of_mem hks hp]
    constructor
    · rw [hval]
      exact (sorted_lt_of_le_nodup (sortDeps_sorted pkgs)
        ((sortDeps_perm pkgs).nodup_iff.mpr h)).sublist (List.filter_sublist _)
    · rw [hval]
      exact (sortDeps_perm pkgs).filter _
  · intro d hd
    apply mem_keys_of_gsel_ne_nil
    rw [hgsel d.name]
    intro hnil
    have : d ∈ (sortDeps pkgs).filter (fun d' => d'.name == d.name) :=
      List.mem_filter.mpr ⟨(sortDeps_perm pkgs).mem_iff.mpr hd, by simp⟩
    rw [hnil] at this
    exact absurd this (List.not_mem_nil _)

theorem packages_from_list_spec_witness :
    [depB, depC].Nodup ∧
    ((keys (packages_from_list [depB, depC])).Sorted (· < ·) ∧
      coherent (packages_from_list [depB, depC]) ∧
      (∀ p ∈ packages_from_list [depB, depC],
        p.2.Sorted (· < ·) ∧ p.2.Perm ([depB, depC].filter (fun d => d.name == p.1))) ∧
      (∀ d ∈ [depB, depC], d.name ∈ keys (packages_from_list [depB, depC])) ∧
      packages_from_list [depB, depC] = packages_from_list [depB, depC]) :=
  ⟨by decide, packages_from_list_spec [depB, depC] (by decide)⟩

/-- `serde 1.0.p` of the end-to-end example. -/
def serdeDep (p : Nat) : Dep := ⟨"serde", ⟨1, 0, p⟩, none⟩

/-- `libc 0.2.0` of the end-to-end example. -/
def libcDep : Dep := ⟨"libc", ⟨0, 2, 0⟩, none⟩

/-- `rand 0.8.0` of the end-to-end example. -/
def randDep : Dep := ⟨"rand", ⟨0, 8, 0⟩, none⟩

/-- C6 counterexample: the program does not print the serde update line before
the rand addition line; `rand` precedes `serde` in the ascending name order of
the merge, so the rand line comes first. -/
theorem render_end_to_end_counterexample :
    (mergeOps (packages_from_list [serdeDep 0, libcDep])
        (packages_from_list [serdeDep 1, libcDep, randDep])).map Op.render ≠
      ["    serde 1.0.0 -> 1.0.1", "+++ rand 0.8.0"] := by decide

/-- C6 (amended): each operation renders literally as `+++ name version`,
`--- name version`, `    name old -> new`; and the end-to-end example prints
exactly the rand addition line followed by the serde update line (nothing for
the unchanged libc), because `rand` precedes `serde` alphabetically. -/
theorem render_format_and_end_to_end :
    (∀ d : Dep, (Op.Add d).render = "+++ " ++ d.name ++ " " ++ d.version.render) ∧
    (∀ d : Dep, (Op.Remove d).render = "--- " ++ d.name ++ " " ++ d.version.render) ∧
    (∀ o n : Dep, (Op.Update o n).render =
      "    " ++ o.name ++ " " ++ o.version.render ++ " -> " ++ n.version.render) ∧
    (mergeOps (packages_from_list [serdeDep 0, libcDep])
        (packages_from_list [serdeDep 1, libcDep, randDep])).map Op.render =
      ["+++ rand 0.8.0", "    serde 1.0.0 -> 1.0.1"] :=
  ⟨fun _ => rfl, fun _ => rfl, fun _ _ => rfl, by decide⟩

/-- Outcome of reading `CHANGELOG.md` at a package root (`main.rs` lines
122-128 match on `err.kind()`): the contents, a not-found error, or any
other I/O error. -/
inductive ReadResult where
  | ok (contents : String)
  | notFound
  | otherError
deriving DecidableEq, Repr

/-- `fn get_changelog` (`main.rs` lines 120-130): a missing `CHANGELOG.md`
is an empty changelog; any other read error is an error. -/
def get_changelog : ReadResult → Except String String
  | .ok s => Except.ok s
  | .notFound => Except.ok ""
  | .otherError => Except.error "Error while reading CHANGELOG.md"

/-- `str.split("\n")` at the character level. -/
def splitLines (s : String) : List String :=
  (s.data.splitOn '\n').map (fun cs => String.mk cs)

/-- Join lines with `"\n"`, at the character level. -/
def joinLines (l : List String) : String :=
  String.mk (List.intercalate ['\n'] (l.map String.data))

/-- Longest common subsequence of two line lists; the fuel only makes the
recursion structural (every call shrinks the combined length, so
`|a| + |b|` fuel is always enough). -/
def lcsF : Nat → List String → List String → List String
  | 0, _, _ => []
  | _ + 1, [], _ => []
  | _ + 1, _ :: _, [] => []
  | f + 1, a :: as, b :: bs =>
    if a = b then a :: lcsF f as bs
    else
      let c1 := lcsF f (a :: as) bs
      let c2 := lcsF f as (b :: bs)
      if c2.length ≤ c1.length then c1 else c2

/-- Longest common subsequence of two line lists. -/
def lcs (a b : List String) : List String := lcsF (a.length + b.length) a b

/-- The added lines of the diff: the new-side lines not matched by the
common subsequence, in order. -/
def diffAdds : List String → List String → List String
  | [], n => n
  | _ :: _, [] => []
  | c :: cs, x :: xs => if x = c then diffAdds cs xs else x :: diffAdds (c :: cs) xs

/-- `fn changelog_diff` (`main.rs` lines 132-139) over the external
`difference::Changeset` split on `"\n"`: the `Difference::Add` chunks joined
with newlines, i.e. the new-side lines unmatched by the common subsequence,
joined with newlines. -/
def changelog_diff (old new : String) : String :=
  joinLines (diffAdds (lcs (splitLines old) (splitLines new)) (splitLines new))

/-- The package metadata the enricher reads from a resolved cargo `Package`:
build-script and proc-macro flags, the license fields, the author list, and
the outcome of reading `CHANGELOG.md` at the package root. -/
structure Pkg where
  custom_build : Bool
  proc_macro : Bool
  license : Option String
  license_file : Option String
  authors : List String
  changelogRead : ReadResult

/-- Executable non-strict comparison on strings. -/
def strLeb (a b : String) : Bool := ! strLtb b a

/-- The sorting relation for author sets, phrased executably. -/
def strLePr (a b : String) : Prop := strLeb a b = true

instance : DecidableRel strLePr := fun a b => inferInstanceAs (Decidable (strLeb a b = true))

/-- Iteration order of a `BTreeSet<String>`: sorted without duplicates. -/
def strSort (l : List String) : List String := (l.insertionSort strLePr).dedup

/-- The changelog part of the enrichment for an `Update` (`main.rs` lines
203-215, also the body of `print_changelog` lines 231-241): both sides read,
a non-empty line diff printed as one `-->` block, any read error replaced by
the error marker. -/
def changelogLines (old new : ReadResult) : List String :=
  match get_changelog old, get_changelog new with
  | .ok o, .ok n =>
    if changelog_diff o n ≠ "" then
      ["--> Additions to CHANGELOG\n" ++ changelog_diff o n]
    else []
  | _, _ => ["--> Error while reading CHANGELOG"]

/-- The findings `Op::print_metadata` prints for an `Update` whose two sides
both resolved (`main.rs` lines 166-215), in source order. -/
def metaLines (old new : Pkg) (changelog : Bool) : List String :=
  (if !old.custom_build && new.custom_build then ["--> Adds a build script"] else []) ++
  (if !old.proc_macro && new.proc_macro then ["--> Turns into a build script"] else []) ++
  (if old.license ≠ new.license then
    ["--> License changed from " ++ old.license.getD "<none>" ++
      " to " ++ new.license.getD "<none>"] else []) ++
  (if old.license_file ≠ new.license_file then
    ["--> License file changed from " ++ old.license_file.getD "<none>" ++
      " to " ++ new.license_file.getD "<none>"] else []) ++
  (let added := strSort (new.authors.filter (fun a => decide (a ∉ old.authors)))
   if added ≠ [] then
     ["--> Additional authors (" ++ String.intercalate ", " added ++ ")"] else []) ++
  (if changelog then changelogLines old.changelogRead new.changelogRead else [])

/-- `Op::print_metadata` (`main.rs` lines 150-224) against the resolution
oracle: a hard resolver error propagates (`?`), an unresolvable record
(`None`) skips the enrichment of this operation, a `Remove` prints nothing. -/
def print_metadata (resolver : Dep → Except String (Option Pkg)) (changelog : Bool) :
    Op → Except String (List String)
  | .Remove _ => Except.ok []
  | .Add dep =>
    match resolver dep with
    | .error e => .error e
    | .ok none => .ok []
    | .ok (some pkg) =>
      .ok ((if pkg.custom_build then ["--> Has a build script"] else []) ++
        (if pkg.proc_macro then ["--> Is a proc macro"] else []))
  | .Update o n =>
    match resolver o with
    | .error e => .error e
    | .ok po =>
      match resolver n with
      | .error e => .error e
      | .ok pn =>
        match po, pn with
        | some po, some pn => .ok (metaLines po pn changelog)
        | _, _ => .ok []

/-- `Op::print_changelog` (`main.rs` lines 225-248): for an `Update` with
both sides resolved, print the changelog block; anything else prints
nothing (with the same error propagation as `print_metadata`). -/
def print_changelog (resolver : Dep → Except String (Option Pkg)) :
    Op → Except String (List String)
  | .Update o n =>
    match resolver o with
    | .error e => .error e
    | .ok po =>
      match resolver n with
      | .error e => .error e
      | .ok pn =>
        match po, pn with
        | some po, some pn => .ok (changelogLines po.changelogRead pn.changelogRead)
        | _, _ => .ok []
  | _ => Except.ok []

/-- The report loop of `main` (`main.rs` lines 376-383): print each
operation's line, then its metadata findings when `-m` is set, else its
changelog block when `-c` is set; a hard error aborts the run. The returned
list is everything the successful run prints. -/
def runOps (resolver : Dep → Except String (Option Pkg)) (metadata changelog : Bool) :
    List Op → Except String (List String)
  | [] => Except.ok []
  | op :: rest =>
    match (if metadata then print_metadata resolver changelog op
           else if changelog then print_changelog resolver op
           else Except.ok []) with
    | .error e => .error e
    | .ok extra =>
      match runOps resolver metadata changelog rest with
      | .error e => .error e
      | .ok restLines => .ok ((op.render :: extra) ++ restLines)

/-- C2 counterexample: when every record is unresolvable (the oracle returns
`None`, e.g. local/path dependencies), the metadata run still completes and
prints each operation's line, but no marker of the skipped enrichment
appears anywhere: the output is exactly the bare operation lines. -/
theorem resolution_failure_no_marker :
    runOps (fun _ => Except.ok none) true true
        [Op.Update (depA 1 0) (depA 2 0), Op.Add (depA 3 0)] =
      Except.ok ["    A 1.0.0 -> 2.0.0", "+++ A 3.0.0"] := rfl

/-- C2 (amended): a resolution failure (record mapped to no package) makes
the enrichment of the affected operation silently skipped — no visible
marker — while the run completes and prints every operation's line. -/
theorem resolution_failure_skips_silently (resolver : Dep → Except String (Option Pkg))
    (metadata changelog : Bool) (ops : List Op)
    (h : ∀ d, resolver d = Except.ok none) :
    runOps resolver metadata changelog ops = Except.ok (ops.map Op.render) := by
  induction ops with
  | nil => rfl
  | cons op rest ih =>
    have hm : (if metadata then print_metadata resolver changelog op
        else if changelog then print_changelog resolver op
        else Except.ok []) = Except.ok [] := by
      cases metadata <;> cases changelog <;> cases op <;>
        simp [print_metadata, print_changelog, h]
    rw [runOps, hm, ih]
    rfl

theorem resolution_failure_skips_silently_witness :
    (∀ d : Dep, (fun _ : Dep => (Except.ok none : Except String (Option Pkg))) d =
      Except.ok none) ∧
    runOps (fun _ => Except.ok none) true false [Op.Add (depA 1 0)] =
      Except.ok [(Op.Add (depA 1 0)).render] :=
  ⟨fun _ => rfl,
    resolution_failure_skips_silently (fun _ => Except.ok none) true false
      [Op.Add (depA 1 0)] (fun _ => rfl)⟩

/-- The resolved old-side package of the changelog scenario: it has no
`CHANGELOG.md`. -/
def pkgOld9 : Pkg := ⟨false, false, none, none, [], ReadResult.notFound⟩

/-- The resolved new-side package of the changelog scenario: its
`CHANGELOG.md` holds one line. -/
def pkgNew9 : Pkg := ⟨false, false, none, none, [], ReadResult.ok "Fixed a bug"⟩

/-- Oracle resolving the example records to the two packages above (the
old record carries major version 1). -/
def resolver9 : Dep → Except String (Option Pkg) := fun d =>
  if d.version.major = 1 then Except.ok (some pkgOld9) else Except.ok (some pkgNew9)

/-- C9: running with the changelog flag but without the metadata flag still
prints the changelog excerpt — `main` calls `print_changelog` in the
`else if` branch — contradicting the flag's own help text, which says it
applies only together with the metadata flag `-m`. -/
theorem changelog_without_metadata_prints :
    runOps resolver9 false true [Op.Update (depA 1 0) (depA 2 0)] =
      Except.ok ["    A 1.0.0 -> 2.0.0", "--> Additions to CHANGELOG\nFixed a bug"] := rfl

theorem lcsF_nil_left (f : Nat) (l : List String) : lcsF f [] l = [] := by
  cases f <;> rfl

theorem lcsF_single_empty : ∀ (f : Nat) (l : List String), "" ∉ l →
    lcsF f [""] l = [] := by
  intro f
  induction f with
  | zero => intro l _; rfl
  | succ f ih =>
    intro l hl
    cases l with
    | nil => rfl
    | cons b bs =>
      have hne : ("" : String) ≠ b := fun h => hl (h ▸ List.mem_cons_self _ _)
      rw [lcsF, if_neg hne]
      have h1 : lcsF f [""] bs = [] := ih bs (fun h => hl (List.mem_cons_of_mem _ h))
      have h2 : lcsF f [] (b :: bs) = [] := lcsF_nil_left f _
      simp [h1, h2]

theorem joinLines_splitLines (c : String) : joinLines (splitLines c) = c := by
  rw [joinLines, splitLines, List.map_map]
  have h : (String.data ∘ fun cs => String.mk cs) = id := rfl
  rw [h, List.map_id, List.intercalate_splitOn]

theorem changelog_diff_empty_left {c : String} (h : "" ∉ splitLines c) :
    changelog_diff "" c = c := by
  rw [changelog_diff]
  have hsplit : splitLines "" = [""] := rfl
  rw [hsplit, lcs, lcsF_single_empty _ _ h]
  rw [show diffAdds [] (splitLines c) = splitLines c from by cases hc : splitLines c <;> rfl]
  exact joinLines_splitLines c

theorem additions_ne_error (d : String) :
    "--> Additions to CHANGELOG\n" ++ d ≠ "--> Error while reading CHANGELOG" := by
  intro h
  have h2 : ("--> Additions to CHANGELOG\n" ++ d).data.take 5 =
      ("--> Error while reading CHANGELOG" : String).data.take 5 := by rw [h]
  rw [String.data_append, List.take_append_eq_append_take,
    show (5 - ("--> Additions to CHANGELOG\n" : String).data.length) = 0 from by decide,
    List.take_zero, List.append_nil] at h2
  exact absurd h2 (by decide)

theorem changelog_ok_ne_marker (o n : String) :
    ¬ (if changelog_diff o n = "" then ([] : List String)
        else ["--> Additions to CHANGELOG\n" ++ changelog_diff o n]) =
      ["--> Error while reading CHANGELOG"] := by
  by_cases hd : changelog_diff o n = ""
  · rw [if_pos hd]
    intro h
    exact List.noConfusion h
  · rw [if_neg hd]
    intro h
    simp only [List.cons.injEq, and_true] at h
    exact additions_ne_error _ h

/-- C10 counterexample: with no old-side changelog and new-side content
`"a\n\nb"`, the reported additions are `"a\nb"`, not the file's entire
line content: the empty old side splits to `[""]` and the line diff matches
that empty line against the blank line of the new file, dropping it. -/
theorem changelog_blank_line_counterexample :
    changelogLines ReadResult.notFound (ReadResult.ok "a\n\nb") =
      ["--> Additions to CHANGELOG\na\nb"] ∧
    changelogLines ReadResult.notFound (ReadResult.ok "a\n\nb") ≠
      ["--> Additions to CHANGELOG\n" ++ "a\n\nb"] :=
  ⟨rfl, by decide⟩

/-- C10 (amended): a missing `CHANGELOG.md` reads as empty content, and only
a non-not-found read error produces the changelog error marker; an `Update`
whose changelog exists only on the new side reports that file's entire line
content as the additions block when the file has no blank line (the empty
old side splits to one empty line, which the line diff matches against a
blank line of the new file, omitting it from the additions — see the
counterexample); an `Update` where neither side has the file reports
nothing. -/
theorem changelog_missing_file_semantics :
    (get_changelog ReadResult.notFound = Except.ok "" ∧
      (∀ s, get_changelog (ReadResult.ok s) = Except.ok s) ∧
      get_changelog ReadResult.otherError =
        Except.error "Error while reading CHANGELOG.md") ∧
    (∀ ro rn : ReadResult,
      changelogLines ro rn = ["--> Error while reading CHANGELOG"] ↔
        ro = ReadResult.otherError ∨ rn = ReadResult.otherError) ∧
    (∀ c : String, "" ∉ splitLines c → c ≠ "" →
      changelogLines ReadResult.notFound (ReadResult.ok c) =
        ["--> Additions to CHANGELOG\n" ++ c]) ∧
    changelogLines ReadResult.notFound ReadResult.notFound = [] := by
  refine ⟨⟨rfl, fun s => rfl, rfl⟩, ?_, ?_, rfl⟩
  · intro ro rn
    cases ro <;> cases rn <;>
      simp only [changelogLines, get_changelog] <;>
      try simp
    all_goals exact changelog_ok_ne_marker _ _
  · intro c hmem hne
    have hdiff : changelog_diff "" c = c := changelog_diff_empty_left hmem
    show (if changelog_diff "" c ≠ "" then
        ["--> Additions to CHANGELOG\n" ++ changelog_diff "" c] else []) = _
    rw [hdiff, if_pos hne]

theorem changelog_missing_file_semantics_witness :
    ("" ∉ splitLines "Fixed a bug" ∧ ("Fixed a bug" : String) ≠ "") ∧
    changelogLines ReadResult.notFound (ReadResult.ok "Fixed a bug") =
      ["--> Additions to CHANGELOG\nFixed a bug"] :=
  ⟨⟨by decide, by decide⟩,
    changelog_missing_file_semantics.2.2.1 "Fixed a bug" (by decide) (by decide)⟩

/-- The external git collaborator of the revision phase: the first parent of
a commit (`commit.parent(0)`), whether an object is a commit, and loading
plus parsing the lock file at an object (`packages_from_git`). -/
structure GitModel where
  parent : String → Option String
  isCommit : String → Bool
  load : String → Except String Deps

/-- The parsed `revspec` (`repo.revparse`): a range `a..b` with its optional
endpoints, or single-commit mode with its one optional object. -/
inductive RevMode where
  | range (src dst : Option String)
  | single (obj : Option String)

/-- The snapshot selection of `main` (`main.rs` lines 310-339): a range loads
both endpoints (erroring `Not a git spec` on a missing one, the old side
first); single-commit mode requires a present commit object, then its first
parent — failing with the `NoParent` error (`No parent to compare to`) when
the commit has none — and compares the parent against the commit. -/
def resolveSnapshots (g : GitModel) : RevMode → Except String (Deps × Deps)
  | .range src dst =>
    match src with
    | none => .error "Not a git spec"
    | some s =>
      match g.load s with
      | .error e => .error e
      | .ok old =>
        match dst with
        | none => .error "Not a git spec"
        | some t =>
          match g.load t with
          | .error e => .error e
          | .ok new => .ok (old, new)
  | .single obj =>
    match obj with
    | none => .error "Not a git spec"
    | some c =>
      if g.isCommit c then
        match g.parent c with
        | none => .error "No parent to compare to"
        | some p =>
          match g.load p with
          | .error e => .error e
          | .ok old =>
            match g.load c with
            | .error e => .error e
            | .ok new => .ok (old, new)
      else .error "is not a commit"

/-- The whole run after argument parsing: resolve the two snapshots — any
failure here aborts before a single report line exists — then diff and
print.  The returned line list is everything the run prints. -/
def runMain (g : GitModel) (m : RevMode) (resolver : Dep → Except String (Option Pkg))
    (metadata changelog : Bool) : Except String (List String) :=
  match resolveSnapshots g m with
  | .error e => .error e
  | .ok (old, new) => runOps resolver metadata changelog (mergeOps old new)

/-- C8: single-commit mode on a commit with no parent fails with the
no-parent revision error; the failure happens while resolving the snapshots,
before any report line is produced, so the run prints nothing. -/
theorem no_parent_fails (g : GitModel) (c : String)
    (resolver : Dep → Except String (Option Pkg)) (metadata changelog : Bool)
    (hc : g.isCommit c = true) (hp : g.parent c = none) :
    runMain g (RevMode.single (some c)) resolver metadata changelog =
      Except.error "No parent to compare to" := by
  rw [runMain]
  rw [show resolveSnapshots g (RevMode.single (some c)) =
      Except.error "No parent to compare to" from by
    rw [resolveSnapshots, if_pos hc, hp]]

theorem no_parent_fails_witness :
    ((GitModel.mk (fun _ => none) (fun _ => true) (fun _ => Except.ok [])).isCommit "HEAD"
        = true ∧
      (GitModel.mk (fun _ => none) (fun _ => true) (fun _ => Except.ok [])).parent "HEAD"
        = none) ∧
    runMain (GitModel.mk (fun _ => none) (fun _ => true) (fun _ => Except.ok []))
        (RevMode.single (some "HEAD")) (fun _ => Except.ok none) true true =
      Except.error "No parent to compare to" :=
  ⟨⟨rfl, rfl⟩,
    no_parent_fails (GitModel.mk (fun _ => none) (fun _ => true) (fun _ => Except.ok []))
      "HEAD" (fun _ => Except.ok none) true true rfl rfl⟩
